import Mathlib

/-
Verification development for the SignalDrift pricing-and-arbitrage core:
odds-format conversion, per-source vig removal with weighted consensus
aggregation, and the recursive cross-market order matcher.

Probabilities and prices are embedded as rationals (ℚ); order sizes are
natural numbers.  Fallible operations return `Except`.
-/

namespace SignalDrift

/-! ## Odds conversion (src/src/AVG_FAIR_ODDS_STRATEGY.md) -/

/-- Embeds `convert_to_implied(numerator, denominator)` for fractional odds
from src/src/AVG_FAIR_ODDS_STRATEGY.md: `denominator / (numerator + denominator)`. -/
def convert_to_implied_fractional (numerator denominator : ℤ) : ℚ :=
  (denominator : ℚ) / ((numerator : ℚ) + (denominator : ℚ))

/-- Embeds `convert_to_implied(american_odds)` for American odds from
src/src/AVG_FAIR_ODDS_STRATEGY.md: `100 / (a + 100)` when `a > 0`, else
`abs(a) / (abs(a) + 100)`. -/
def convert_to_implied_american (american_odds : ℤ) : ℚ :=
  if american_odds > 0 then
    100 / ((american_odds : ℚ) + 100)
  else
    |(american_odds : ℚ)| / (|(american_odds : ℚ)| + 100)

/-- Embeds `convert_to_implied(decimal_odds)` for decimal odds from
src/src/AVG_FAIR_ODDS_STRATEGY.md: `1 / decimal_odds`. -/
def convert_to_implied_decimal (decimal_odds : ℚ) : ℚ :=
  1 / decimal_odds

/-- Odds quote in one of the three supported formats. -/
inductive OddsQuote where
  | american (a : ℤ)
  | decimal (d : ℚ)
  | fractional (num den : ℤ)

/-- Error taxonomy of the core. -/
inductive CoreError where
  | invalidInput
  | insufficientData
  deriving DecidableEq

/-- Modelled from the spec: the validating odds normalizer
`to_probability(quote)` of section 4.1 (the concrete module
src/calculators is not present in the repository snapshot; the conversion
formulas themselves follow the `convert_to_implied` code in
src/src/AVG_FAIR_ODDS_STRATEGY.md).  American odds strictly between −100
and 100 (including 0), decimal odds ≤ 1, and fractional odds with a
non-positive numerator or denominator fail with InvalidInput. -/
def to_probability : OddsQuote → Except CoreError ℚ
  | OddsQuote.american a =>
      if -100 < a ∧ a < 100 then Except.error CoreError.invalidInput
      else if a > 0 then Except.ok (100 / ((a : ℚ) + 100))
      else Except.ok (|(a : ℚ)| / (|(a : ℚ)| + 100))
  | OddsQuote.decimal d =>
      if d ≤ 1 then Except.error CoreError.invalidInput
      else Except.ok (1 / d)
  | OddsQuote.fractional n d =>
      if n ≤ 0 ∨ d ≤ 0 then Except.error CoreError.invalidInput
      else Except.ok ((d : ℚ) / ((n : ℚ) + (d : ℚ)))

/-! ## Fair value aggregation (spec section 4.2; pseudocode in
src/notes/20250601-meeting.md) -/

/-- Modelled from the spec: per-source vig removal (`no_vig_prob =
prob / sum_of_probs` in src/notes/20250601-meeting.md); each raw implied
probability of one market from one source is divided by that source's
book total. -/
def no_vig (probs : List ℚ) : List ℚ :=
  probs.map (fun p => p / probs.sum)

/-- One source's report for one market: its configured weight and its
implied probabilities, one per outcome. -/
structure SourceBook where
  weight : ℚ
  probs : List ℚ

/-- Modelled from the spec: vig removal applied to one source's book,
keeping its weight. -/
def removeVig (b : SourceBook) : SourceBook :=
  ⟨b.weight, no_vig b.probs⟩

/-- Modelled from the spec: the configured weight of one present source,
re-normalized over exactly the sources present for this market. -/
def normalizedWeight (books : List SourceBook) (b : SourceBook) : ℚ :=
  b.weight / (books.map SourceBook.weight).sum

/-- Modelled from the spec: weight-weighted sum over the present sources
of the probability each reports for outcome `i`
(`weighted_prob = sum(no_vig_prob[book] * weights[book])` in
src/notes/20250601-meeting.md, with weights normalized over the present
sources). -/
def weightedConsensus (books : List SourceBook) (i : ℕ) : ℚ :=
  (books.map (fun b => normalizedWeight books b * b.probs.getD i 0)).sum

/-- Modelled from the spec: `aggregate` for one outcome — vig is removed
per source first, then the weighted consensus is taken across sources. -/
def aggregate (books : List SourceBook) (i : ℕ) : ℚ :=
  weightedConsensus (books.map removeVig) i

/-! ## Cross-market matcher (spec section 4.3; worked example in
src/unnamed/part_006) -/

/-- One rung of a sell-side order book: a price and an available size. -/
structure PriceLevel where
  price : ℚ
  size : ℕ

/-- One emitted pair of buy orders: `size` bought on market A at `priceA`
and `size` bought on market B at `priceB`. -/
structure MatchedPair where
  priceA : ℚ
  priceB : ℚ
  size : ℕ

/-- State returned by the matching walk: the emitted pairs and the two
working queues as they remain when the walk stops. -/
structure MatchResult where
  pairs : List MatchedPair
  restA : List PriceLevel
  restB : List PriceLevel

/-- Modelled from the spec: one decrement step on a working queue — the
head level loses `s` units and is removed when its remaining size is zero
(step 5 of the matching algorithm; src/unnamed/part_006 shows the same
removal on the worked example). -/
def consume (s : ℕ) : List PriceLevel → List PriceLevel
  | [] => []
  | l :: ls => if l.size - s = 0 then ls else ⟨l.price, l.size - s⟩ :: ls

/-- Modelled from the spec: the recursive greedy matching walk of section
4.3 (the matcher implementation itself is not present in the repository
snapshot; src/unnamed/part_006 records its worked example).  While both
queues are nonempty and the two cheapest prices sum to less than
`1 - margin`, emit a pair of size `min a.size b.size`, decrement both
heads by that size, drop exhausted levels, and recurse. -/
def matchAll (margin : ℚ) : List PriceLevel → List PriceLevel → MatchResult
  | [], bls => ⟨[], [], bls⟩
  | a :: als, [] => ⟨[], a :: als, []⟩
  | a :: als, b :: bls =>
    if 1 - margin ≤ a.price + b.price then ⟨[], a :: als, b :: bls⟩
    else
      let s := min a.size b.size
      let r := matchAll margin (consume s (a :: als)) (consume s (b :: bls))
      ⟨⟨a.price, b.price, s⟩ :: r.pairs, r.restA, r.restB⟩
termination_by A B => A.length + B.length
decreasing_by
  have key : ∀ (s : ℕ) (l : PriceLevel) (ls : List PriceLevel),
      (consume s (l :: ls)).length ≤ ls.length + 1 ∧
      (l.size ≤ s → (consume s (l :: ls)).length = ls.length) := by
    intro s l ls
    constructor
    · simp only [consume]
      split <;> simp
    · intro h
      simp only [consume]
      rw [if_pos (Nat.sub_eq_zero_of_le h)]
  rcases Nat.le_total a.size b.size with h | h
  · have h1 := (key (min a.size b.size) a als).2 (by omega)
    have h2 := (key (min a.size b.size) b bls).1
    simp only [List.length_cons]
    omega
  · have h1 := (key (min a.size b.size) a als).1
    have h2 := (key (min a.size b.size) b bls).2 (by omega)
    simp only [List.length_cons]
    omega

/-- Capital deployed by one matched pair: `size * (priceA + priceB)`. -/
def pairCapital (p : MatchedPair) : ℚ :=
  (p.size : ℚ) * (p.priceA + p.priceB)

/-- Theoretical profit of one matched pair: `size * (1 - priceA - priceB)`. -/
def pairProfit (p : MatchedPair) : ℚ :=
  (p.size : ℚ) * (1 - p.priceA - p.priceB)

/-- Total capital deployed over a batch of matched pairs. -/
def batchCapital (ps : List MatchedPair) : ℚ :=
  (ps.map pairCapital).sum

/-- Total theoretical profit over a batch of matched pairs. -/
def batchProfit (ps : List MatchedPair) : ℚ :=
  (ps.map pairProfit).sum

/-- Realized return of a batch: profit over capital, reported as zero when
no capital was deployed. -/
def batchReturn (ps : List MatchedPair) : ℚ :=
  if batchCapital ps = 0 then 0 else batchProfit ps / batchCapital ps

/-- Result of one matching run: the ordered pairs plus the aggregate
capital, profit and return figures. -/
structure ArbitrageBatch where
  pairs : List MatchedPair
  totalCapital : ℚ
  totalProfit : ℚ
  realizedReturn : ℚ

/-- Modelled from the spec: `match(pair, margin) -> ArbitrageBatch` —
run the matching walk and attach the batch aggregates. -/
def matchOrders (margin : ℚ) (A B : List PriceLevel) : ArbitrageBatch :=
  let r := matchAll margin A B
  ⟨r.pairs, batchCapital r.pairs, batchProfit r.pairs, batchReturn r.pairs⟩

/-- Validity of one order-book side: strictly ascending prices (which also
rules out duplicate prices) and positive sizes. -/
def ValidSide (L : List PriceLevel) : Prop :=
  List.Chain' (fun x y => x.price < y.price) L ∧ ∀ l ∈ L, 0 < l.size

/-- Total available size of an order-book side. -/
def totalSize (L : List PriceLevel) : ℕ :=
  (L.map PriceLevel.size).sum

/-- Total matched size of a batch (equal for the two markets, since every
pair buys the same size on each side). -/
def matchedSize (ps : List MatchedPair) : ℕ :=
  (ps.map MatchedPair.size).sum

/-- Side A of the canonical worked example of src/unnamed/part_006. -/
def exA : List PriceLevel :=
  [⟨47/100, 25⟩, ⟨53/100, 60⟩, ⟨54/100, 10⟩]

/-- Side B of the canonical worked example of src/unnamed/part_006. -/
def exB : List PriceLevel :=
  [⟨48/100, 10⟩, ⟨49/100, 60⟩, ⟨54/100, 10⟩]

/-! ## Notebook-level conversion wrapper
(src/notebooks/manual_odds_entry.ipynb) -/

/-- Python-style exception values raised inside the conversion helpers. -/
inductive PyExn where
  | valueError (msg : String)
  | otherExn

/-- Embeds the try-block body of `convert_odds_to_probability` in
src/notebooks/manual_odds_entry.ipynb, with the two underlying converters
(`american_to_probability`, `decimal_to_probability`, whose module is not
present in the repository snapshot) abstracted as arbitrary fallible
functions: dispatch on the format string, raising ValueError on an
unsupported format. -/
def convert_odds_body (am de : ℚ → Except PyExn ℚ) (odds_value : ℚ)
    (odds_format : String) : Except PyExn ℚ :=
  if odds_format = "American" then am odds_value
  else if odds_format = "Decimal" then de odds_value
  else Except.error (PyExn.valueError ("Unsupported odds format: " ++ odds_format))

/-- Embeds `convert_odds_to_probability` of
src/notebooks/manual_odds_entry.ipynb: the body runs inside
`try ... except Exception: return None`, so every raised exception becomes
the result `none`. -/
def convert_odds_to_probability (am de : ℚ → Except PyExn ℚ) (odds_value : ℚ)
    (odds_format : String) : Option ℚ :=
  match convert_odds_body am de odds_value odds_format with
  | Except.ok p => some p
  | Except.error _ => none

/-! ## Helper lemmas about the matcher -/

/-- Consuming from a queue shortens it by at most the removed head. -/
theorem consume_length_le (s : ℕ) (l : PriceLevel) (ls : List PriceLevel) :
    (consume s (l :: ls)).length ≤ ls.length + 1 := by
  simp only [consume]
  split <;> simp

/-- Consuming at least the whole head removes exactly one level. -/
theorem consume_length_of_le (s : ℕ) (l : PriceLevel) (ls : List PriceLevel)
    (h : l.size ≤ s) : (consume s (l :: ls)).length = ls.length := by
  simp only [consume]
  rw [if_pos (Nat.sub_eq_zero_of_le h)]

/-- Consuming `s` units from a nonempty queue removes exactly `s` units of
total size, provided the head holds at least `s` units. -/
theorem consume_totalSize (s : ℕ) (l : PriceLevel) (ls : List PriceLevel)
    (h : s ≤ l.size) : totalSize (consume s (l :: ls)) + s = totalSize (l :: ls) := by
  simp only [consume, totalSize]
  split
  · simp only [List.map_cons, List.sum_cons]
    omega
  · simp only [List.map_cons, List.sum_cons]
    omega

/-- Every pair the matching walk emits passed the profitability check. -/
theorem matchAll_pairs_profitable (margin : ℚ) (A B : List PriceLevel)
    (p : MatchedPair) (hp : p ∈ (matchAll margin A B).pairs) :
    p.priceA + p.priceB < 1 - margin := by
  induction A, B using matchAll.induct margin with
  | case1 bls => simp [matchAll] at hp
  | case2 a als => simp [matchAll] at hp
  | case3 a als b bls hstop =>
    simp only [matchAll, if_pos hstop] at hp
    simp at hp
  | case4 a als b bls hgo s ih =>
    simp only [matchAll, if_neg hgo] at hp
    rcases List.mem_cons.mp hp with rfl | hmem
    · exact lt_of_not_le hgo
    · exact ih hmem

/-- The walk stops, emitting nothing and leaving both queues untouched, as
soon as the two cheapest remaining prices sum to at least `1 - margin`. -/
theorem matchAll_stop (margin : ℚ) (a b : PriceLevel) (als bls : List PriceLevel)
    (h : 1 - margin ≤ a.price + b.price) :
    matchAll margin (a :: als) (b :: bls) = ⟨[], a :: als, b :: bls⟩ := by
  simp only [matchAll, if_pos h]

/-- Iteration accounting: every emitted pair accounts for at least one
fully consumed, removed price level, so the pair count plus the remaining
level count never exceeds the original level count. -/
theorem matchAll_length_invariant (margin : ℚ) (A B : List PriceLevel) :
    (matchAll margin A B).pairs.length + ((matchAll margin A B).restA.length
      + (matchAll margin A B).restB.length) ≤ A.length + B.length := by
  induction A, B using matchAll.induct margin with
  | case1 bls => simp [matchAll]
  | case2 a als => simp [matchAll]
  | case3 a als b bls hstop =>
    simp only [matchAll, if_pos hstop]
    simp
  | case4 a als b bls hgo s ih =>
    simp only [matchAll, if_neg hgo, List.length_cons]
    have hs : s = min a.size b.size := rfl
    rw [← hs] at *
    rcases Nat.le_total a.size b.size with h | h
    · have h1 := consume_length_of_le s a als (by omega)
      have h2 := consume_length_le s b bls
      omega
    · have h1 := consume_length_le s a als
      have h2 := consume_length_of_le s b bls (by omega)
      omega

/-- Size conservation: on each side, the remaining size plus the matched
size equals the original total size. -/
theorem matchAll_conservation (margin : ℚ) (A B : List PriceLevel) :
    totalSize (matchAll margin A B).restA + matchedSize (matchAll margin A B).pairs
      = totalSize A ∧
    totalSize (matchAll margin A B).restB + matchedSize (matchAll margin A B).pairs
      = totalSize B := by
  induction A, B using matchAll.induct margin with
  | case1 bls => simp [matchAll, totalSize, matchedSize]
  | case2 a als => simp [matchAll, totalSize, matchedSize]
  | case3 a als b bls hstop =>
    simp only [matchAll, if_pos hstop]
    simp [matchedSize]
  | case4 a als b bls hgo s ih =>
    simp only [matchAll, if_neg hgo]
    have hs : s = min a.size b.size := rfl
    rw [← hs] at *
    have hA := consume_totalSize s a als (hs ▸ Nat.min_le_left _ _)
    have hB := consume_totalSize s b bls (hs ▸ Nat.min_le_right _ _)
    simp only [matchedSize, List.map_cons, List.sum_cons] at ih ⊢
    omega

/-! ## Claim theorems -/

/-- C1: for the canonical input pair A = [(0.47,25),(0.53,60),(0.54,10)]
and B = [(0.48,10),(0.49,60),(0.54,10)] with margin 0, match returns
exactly the batch [(10@0.47,10@0.48), (15@0.47,15@0.49)] with total
capital 23.90, total profit 1.10, and return approximately 4.6%. -/
theorem canonical_example_batch :
    (matchOrders 0 exA exB).pairs = [⟨47/100, 48/100, 10⟩, ⟨47/100, 49/100, 15⟩] ∧
    (matchOrders 0 exA exB).totalCapital = 239/10 ∧
    (matchOrders 0 exA exB).totalProfit = 11/10 ∧
    |(matchOrders 0 exA exB).realizedReturn - 46/1000| < 1/1000 := by
  norm_num [matchOrders, matchAll, consume, exA, exB, batchCapital, batchProfit,
    batchReturn, pairCapital, pairProfit, abs_of_pos]

/-- C2: for every valid ComplementaryMarketPair and every margin, every
pair emitted by match satisfies priceA + priceB < 1 - margin, and the walk
stops — emitting nothing further — the first time the cheapest remaining
levels of the two sides sum to at least 1 - margin. -/
theorem match_profitability (margin : ℚ) (A B : List PriceLevel)
    (hA : ValidSide A) (hB : ValidSide B) :
    (∀ p ∈ (matchOrders margin A B).pairs, p.priceA + p.priceB < 1 - margin) ∧
    (∀ a b als bls, A = a :: als → B = b :: bls →
      1 - margin ≤ a.price + b.price → matchAll margin A B = ⟨[], A, B⟩) := by
  constructor
  · intro p hp
    exact matchAll_pairs_profitable margin A B p hp
  · rintro a b als bls rfl rfl h
    exact matchAll_stop margin a b als bls h

/-- Witness for C2 at the canonical example: the first emitted pair
(10@0.47, 10@0.48) is strictly profitable. -/
theorem match_profitability_witness :
    (⟨47/100, 48/100, 10⟩ : MatchedPair).priceA
      + (⟨47/100, 48/100, 10⟩ : MatchedPair).priceB < 1 - 0 :=
  (match_profitability 0 exA exB (by norm_num [ValidSide, exA])
    (by norm_num [ValidSide, exB])).1 ⟨47/100, 48/100, 10⟩
    (by norm_num [matchOrders, matchAll, consume, exA, exB])

/-- C3: for every valid ComplementaryMarketPair, match terminates (it is a
total function here) in at most |A| + |B| emitted-match iterations, each
iteration fully consuming and removing at least one price level: the pair
count plus the count of surviving levels is bounded by |A| + |B|. -/
theorem match_termination_bound (margin : ℚ) (A B : List PriceLevel)
    (hA : ValidSide A) (hB : ValidSide B) :
    (matchOrders margin A B).pairs.length ≤ A.length + B.length ∧
    (matchOrders margin A B).pairs.length + ((matchAll margin A B).restA.length
      + (matchAll margin A B).restB.length) ≤ A.length + B.length := by
  have h := matchAll_length_invariant margin A B
  simp only [matchOrders]
  omega

/-- Witness for C3 at the canonical example. -/
theorem match_termination_bound_witness :
    (matchOrders 0 exA exB).pairs.length ≤ exA.length + exB.length :=
  (match_termination_bound 0 exA exB (by norm_num [ValidSide, exA])
    (by norm_num [ValidSide, exB])).1

/-- C4: for every valid ComplementaryMarketPair, the summed matched size
per market never exceeds that side's original total size, and each side's
unmatched remainder equals its original total minus its matched total. -/
theorem match_conservation (margin : ℚ) (A B : List PriceLevel)
    (hA : ValidSide A) (hB : ValidSide B) :
    matchedSize (matchOrders margin A B).pairs ≤ totalSize A ∧
    matchedSize (matchOrders margin A B).pairs ≤ totalSize B ∧
    totalSize (matchAll margin A B).restA
      + matchedSize (matchOrders margin A B).pairs = totalSize A ∧
    totalSize (matchAll margin A B).restB
      + matchedSize (matchOrders margin A B).pairs = totalSize B := by
  have h := matchAll_conservation margin A B
  simp only [matchOrders]
  omega

/-- Witness for C4 at the canonical example. -/
theorem match_conservation_witness :
    matchedSize (matchOrders 0 exA exB).pairs ≤ totalSize exA :=
  (match_conservation 0 exA exB (by norm_num [ValidSide, exA])
    (by norm_num [ValidSide, exB])).1

/-! ## Helper lemmas about the aggregator -/

/-- Dividing every element of a list by a constant divides its sum. -/
theorem list_sum_map_div (l : List ℚ) (c : ℚ) :
    (l.map (fun x => x / c)).sum = l.sum / c := by
  induction l with
  | nil => simp
  | cons x xs ih => simp [ih, add_div]

/-- Dividing every source weight by a constant divides the summed weight. -/
theorem sum_map_weight_div (books : List SourceBook) (c : ℚ) :
    (books.map (fun b => b.weight / c)).sum = (books.map SourceBook.weight).sum / c := by
  induction books with
  | nil => simp
  | cons x xs ih => simp [ih, add_div]

/-- Vig removal keeps every source's weight. -/
theorem removeVig_weights (books : List SourceBook) :
    (books.map removeVig).map SourceBook.weight = books.map SourceBook.weight := by
  induction books with
  | nil => rfl
  | cons x xs ih => simp [removeVig, ih]

/-- An upper bound on all values bounds a nonnegatively-weighted sum by the
summed weight times the bound. -/
theorem weighted_sum_le (books : List SourceBook) (w p : SourceBook → ℚ) (hi : ℚ)
    (hw : ∀ b ∈ books, 0 ≤ w b) (hp : ∀ b ∈ books, p b ≤ hi) :
    (books.map (fun b => w b * p b)).sum ≤ (books.map w).sum * hi := by
  induction books with
  | nil => simp
  | cons x xs ih =>
    simp only [List.map_cons, List.sum_cons, add_mul]
    have h1 : w x * p x ≤ w x * hi :=
      mul_le_mul_of_nonneg_left (hp x (List.mem_cons_self x xs))
        (hw x (List.mem_cons_self x xs))
    have h2 := ih (fun b hb => hw b (List.mem_cons_of_mem x hb))
      (fun b hb => hp b (List.mem_cons_of_mem x hb))
    exact add_le_add h1 h2

/-- A lower bound on all values bounds a nonnegatively-weighted sum from
below by the summed weight times the bound. -/
theorem le_weighted_sum (books : List SourceBook) (w p : SourceBook → ℚ) (lo : ℚ)
    (hw : ∀ b ∈ books, 0 ≤ w b) (hp : ∀ b ∈ books, lo ≤ p b) :
    (books.map w).sum * lo ≤ (books.map (fun b => w b * p b)).sum := by
  induction books with
  | nil => simp
  | cons x xs ih =>
    simp only [List.map_cons, List.sum_cons, add_mul]
    have h1 : w x * lo ≤ w x * p x :=
      mul_le_mul_of_nonneg_left (hp x (List.mem_cons_self x xs))
        (hw x (List.mem_cons_self x xs))
    have h2 := ih (fun b hb => hw b (List.mem_cons_of_mem x hb))
      (fun b hb => hp b (List.mem_cons_of_mem x hb))
    exact add_le_add h1 h2

/-- With positive total weight, the re-normalized weights of the present
sources sum to one. -/
theorem normalizedWeight_sum (books : List SourceBook)
    (hW : 0 < (books.map SourceBook.weight).sum) :
    (books.map (fun b => normalizedWeight books b)).sum = 1 := by
  simp only [normalizedWeight]
  rw [sum_map_weight_div]
  exact div_self (ne_of_gt hW)

/-- The weighted consensus never exceeds an upper bound on the reported
probabilities. -/
theorem weightedConsensus_le (books : List SourceBook) (i : ℕ) (hi : ℚ)
    (hw : ∀ b ∈ books, 0 ≤ b.weight)
    (hW : 0 < (books.map SourceBook.weight).sum)
    (hhi : ∀ b ∈ books, b.probs.getD i 0 ≤ hi) :
    weightedConsensus books i ≤ hi := by
  have hnn : ∀ b ∈ books, 0 ≤ normalizedWeight books b := fun b hb =>
    div_nonneg (hw b hb) (le_of_lt hW)
  have h1 := weighted_sum_le books (fun b => normalizedWeight books b)
    (fun b => b.probs.getD i 0) hi hnn hhi
  rw [normalizedWeight_sum books hW, one_mul] at h1
  exact h1

/-- The weighted consensus never falls below a lower bound on the reported
probabilities. -/
theorem le_weightedConsensus (books : List SourceBook) (i : ℕ) (lo : ℚ)
    (hw : ∀ b ∈ books, 0 ≤ b.weight)
    (hW : 0 < (books.map SourceBook.weight).sum)
    (hlo : ∀ b ∈ books, lo ≤ b.probs.getD i 0) :
    lo ≤ weightedConsensus books i := by
  have hnn : ∀ b ∈ books, 0 ≤ normalizedWeight books b := fun b hb =>
    div_nonneg (hw b hb) (le_of_lt hW)
  have h1 := le_weighted_sum books (fun b => normalizedWeight books b)
    (fun b => b.probs.getD i 0) lo hnn hlo
  rw [normalizedWeight_sum books hW, one_mul] at h1
  exact h1

/-- A single source with positive weight gets normalized weight one, so
the consensus is its own reported probability. -/
theorem weightedConsensus_single (b : SourceBook) (i : ℕ) (hb : 0 < b.weight) :
    weightedConsensus [b] i = b.probs.getD i 0 := by
  simp [weightedConsensus, normalizedWeight, div_self (ne_of_gt hb)]

/-! ## Claim theorems for the normalizer, aggregator and notebook wrapper -/

/-- C5: the conversion code computes p = 100/(a+100) for positive American
odds, p = |a|/(|a|+100) for negative American odds, p = 1/d for decimal
odds and p = den/(num+den) for fractional odds; American −150 maps to 0.6,
Decimal 2.0 maps to 0.5 and Fractional 9/10 maps to 10/19. -/
theorem convert_to_implied_formulas :
    (∀ a : ℤ, 0 < a → convert_to_implied_american a = 100 / ((a : ℚ) + 100)) ∧
    (∀ a : ℤ, a < 0 →
      convert_to_implied_american a = |(a : ℚ)| / (|(a : ℚ)| + 100)) ∧
    (∀ d : ℚ, convert_to_implied_decimal d = 1 / d) ∧
    (∀ n den : ℤ,
      convert_to_implied_fractional n den = (den : ℚ) / ((n : ℚ) + (den : ℚ))) ∧
    convert_to_implied_american (-150) = 3/5 ∧
    convert_to_implied_decimal 2 = 1/2 ∧
    convert_to_implied_fractional 9 10 = 10/19 := by
  refine ⟨?_, ?_, ?_, ?_, ?_, ?_, ?_⟩
  · intro a ha
    simp [convert_to_implied_american, ha]
  · intro a ha
    simp only [convert_to_implied_american, if_neg (by omega : ¬ a > 0)]
  · intro d
    rfl
  · intro n den
    rfl
  · norm_num [convert_to_implied_american]
  · norm_num [convert_to_implied_decimal]
  · norm_num [convert_to_implied_fractional]

/-- Witness for C5 on both American branches at odds +150 and −150. -/
theorem convert_to_implied_formulas_witness :
    (0 : ℤ) < 150 ∧
    convert_to_implied_american 150 = 100 / (((150 : ℤ) : ℚ) + 100) ∧
    (-150 : ℤ) < 0 ∧
    convert_to_implied_american (-150)
      = |((-150 : ℤ) : ℚ)| / (|((-150 : ℤ) : ℚ)| + 100) :=
  ⟨by decide, convert_to_implied_formulas.1 150 (by decide), by decide,
    convert_to_implied_formulas.2.1 (-150) (by decide)⟩

/-- C6: every American odds input strictly between −100 and 100 (including
zero, excluding the boundary values) fails with InvalidInput. -/
theorem american_invalid_range (a : ℤ) (h1 : -100 < a) (h2 : a < 100) :
    to_probability (OddsQuote.american a) = Except.error CoreError.invalidInput := by
  simp [to_probability, h1, h2]

/-- Witness for C6 at American odds 0. -/
theorem american_invalid_range_witness :
    (-100 : ℤ) < 0 ∧ (0 : ℤ) < 100 ∧
    to_probability (OddsQuote.american 0) = Except.error CoreError.invalidInput :=
  ⟨by decide, by decide, american_invalid_range 0 (by decide) (by decide)⟩

/-- C7: decimal conversion fails with InvalidInput exactly when d ≤ 1 and
otherwise returns 1/d, a probability strictly between 0 and 1. -/
theorem decimal_invalid_iff (d : ℚ) :
    (to_probability (OddsQuote.decimal d) = Except.error CoreError.invalidInput
      ↔ d ≤ 1) ∧
    (1 < d → to_probability (OddsQuote.decimal d) = Except.ok (1 / d)
      ∧ 0 < 1 / d ∧ 1 / d < 1) := by
  constructor
  · constructor
    · intro h
      by_contra hc
      push_neg at hc
      simp [to_probability, not_le_of_gt hc] at h
    · intro h
      simp [to_probability, h]
  · intro h
    have hd0 : 0 < d := lt_trans one_pos h
    refine ⟨by simp [to_probability, not_le_of_gt h], by positivity, ?_⟩
    rw [div_lt_one hd0]
    exact h

/-- Witness for C7 at decimal odds 2. -/
theorem decimal_invalid_iff_witness :
    (1 : ℚ) < 2 ∧ to_probability (OddsQuote.decimal 2) = Except.ok (1 / 2) :=
  ⟨one_lt_two, ((decimal_invalid_iff 2).2 one_lt_two).1⟩

/-- C8: when a source's raw implied probabilities have a positive book
total, dividing each by that total yields no-vig probabilities summing to
exactly 1, and aggregation removes vig per source before the cross-source
weighted consensus. -/
theorem no_vig_normalization (probs : List ℚ) (h : 0 < probs.sum) :
    (no_vig probs).sum = 1 ∧
    (∀ (books : List SourceBook) (i : ℕ),
      aggregate books i = weightedConsensus (books.map removeVig) i) := by
  refine ⟨?_, fun books i => rfl⟩
  simp only [no_vig]
  rw [list_sum_map_div]
  exact div_self (ne_of_gt h)

/-- Witness for C8 on the book total 1/2 + 2/3. -/
theorem no_vig_normalization_witness :
    (0 : ℚ) < ([1/2, 2/3] : List ℚ).sum ∧ (no_vig [1/2, 2/3]).sum = 1 :=
  ⟨by norm_num, (no_vig_normalization [1/2, 2/3] (by norm_num)).1⟩

/-- C9: with the configured weights re-normalized over exactly the present
sources, the consensus probability is a convex combination of the
per-source no-vig probabilities — it lies within every interval bounding
them — and a single-source market returns that source's no-vig probability
unchanged. -/
theorem aggregate_convex (books : List SourceBook) (i : ℕ) (lo hi : ℚ)
    (hw : ∀ b ∈ books, 0 ≤ b.weight)
    (hW : 0 < (books.map SourceBook.weight).sum)
    (hlo : ∀ b ∈ books, lo ≤ (no_vig b.probs).getD i 0)
    (hhi : ∀ b ∈ books, (no_vig b.probs).getD i 0 ≤ hi) :
    (lo ≤ aggregate books i ∧ aggregate books i ≤ hi) ∧
    (∀ b : SourceBook, 0 < b.weight →
      aggregate [b] i = (no_vig b.probs).getD i 0) := by
  have hw' : ∀ b ∈ books.map removeVig, 0 ≤ b.weight := by
    intro b hb
    rcases List.mem_map.mp hb with ⟨c, hc, rfl⟩
    exact hw c hc
  have hW' : 0 < ((books.map removeVig).map SourceBook.weight).sum := by
    rw [removeVig_weights]
    exact hW
  have hlo' : ∀ b ∈ books.map removeVig, lo ≤ b.probs.getD i 0 := by
    intro b hb
    rcases List.mem_map.mp hb with ⟨c, hc, rfl⟩
    exact hlo c hc
  have hhi' : ∀ b ∈ books.map removeVig, b.probs.getD i 0 ≤ hi := by
    intro b hb
    rcases List.mem_map.mp hb with ⟨c, hc, rfl⟩
    exact hhi c hc
  refine ⟨⟨le_weightedConsensus _ i lo hw' hW' hlo',
    weightedConsensus_le _ i hi hw' hW' hhi'⟩, ?_⟩
  intro b hb
  have : aggregate [b] i = weightedConsensus [removeVig b] i := rfl
  rw [this, weightedConsensus_single (removeVig b) i hb]
  rfl

/-- Witness for C9 on a single source of weight 1 reporting the fair coin. -/
theorem aggregate_convex_witness :
    (0 : ℚ) ≤ aggregate [⟨1, [1/2, 1/2]⟩] 0 ∧ aggregate [⟨1, [1/2, 1/2]⟩] 0 ≤ 1 :=
  (aggregate_convex [⟨1, [1/2, 1/2]⟩] 0 0 1
    (by norm_num) (by norm_num) (by norm_num [no_vig]) (by norm_num [no_vig])).1

/-- C10: the notebook-level convert_odds_to_probability never propagates
an exception — every failure of the underlying conversion body, including
the ValueError raised on an unsupported format string, is caught and None
is returned, and a non-None answer can only come from a successful
conversion. -/
theorem convert_odds_never_raises (am de : ℚ → Except PyExn ℚ) (v : ℚ)
    (fmt : String) :
    (∀ e, convert_odds_body am de v fmt = Except.error e →
      convert_odds_to_probability am de v fmt = none) ∧
    (fmt ≠ "American" → fmt ≠ "Decimal" →
      convert_odds_to_probability am de v fmt = none) ∧
    (∀ p, convert_odds_to_probability am de v fmt = some p →
      convert_odds_body am de v fmt = Except.ok p) := by
  refine ⟨?_, ?_, ?_⟩
  · intro e he
    simp [convert_odds_to_probability, he]
  · intro h1 h2
    simp [convert_odds_to_probability, convert_odds_body, h1, h2]
  · intro p hp
    cases h : convert_odds_body am de v fmt with
    | error e =>
      simp [convert_odds_to_probability, h] at hp
    | ok q =>
      simp [convert_odds_to_probability, h] at hp
      rw [hp]

/-- Witness for C10: an always-raising converter and an unsupported format
both yield None. -/
theorem convert_odds_never_raises_witness :
    convert_odds_to_probability (fun _ => Except.error PyExn.otherExn)
      (fun _ => Except.error PyExn.otherExn) 0 "American" = none ∧
    convert_odds_to_probability (fun _ => Except.error PyExn.otherExn)
      (fun _ => Except.error PyExn.otherExn) 0 "Fractional" = none :=
  ⟨(convert_odds_never_raises (fun _ => Except.error PyExn.otherExn)
      (fun _ => Except.error PyExn.otherExn) 0 "American").1 PyExn.otherExn rfl,
   (convert_odds_never_raises (fun _ => Except.error PyExn.otherExn)
      (fun _ => Except.error PyExn.otherExn) 0 "Fractional").2.1
      (by decide) (by decide)⟩

end SignalDrift
